import Mathlib

/-!
Verification of the lyrics-sync application core: the lyrics parser
(`parseLyrics` in the server source), the playback synchronizer
(`updateLyrics` in `public/player.js`), and the content-hash registry
(`calculateFileHash`, `findDuplicateFile`, `registerFile`,
`initializeFileHashes` in the server source).

JavaScript strings are embedded as `List Char`; JavaScript numbers are
embedded as exact values in the type `JSNum` (rationals extended with the
special values `Infinity`, `-Infinity` and `NaN`), idealizing IEEE doubles
by exact rational arithmetic.
-/

set_option maxRecDepth 20000

attribute [local semireducible] Rat.inv Rat.mul Rat.add Rat.sub

/-! ## JavaScript character classes

`isJsWS` is the character set matched by the regex class `\s` and stripped
by `String.prototype.trim`: ECMAScript WhiteSpace together with
LineTerminator.  `isLineTerm` is the ECMAScript LineTerminator set (the
characters NOT matched by `.` in a regex). -/

def isJsWS (c : Char) : Bool :=
  c.toNat = 9 || c.toNat = 10 || c.toNat = 11 || c.toNat = 12 || c.toNat = 13 ||
  c.toNat = 32 || c.toNat = 160 || c.toNat = 5760 ||
  (8192 ≤ c.toNat && c.toNat ≤ 8202) ||
  c.toNat = 8232 || c.toNat = 8233 || c.toNat = 8239 || c.toNat = 8287 ||
  c.toNat = 12288 || c.toNat = 65279

def isLineTerm (c : Char) : Bool :=
  c.toNat = 10 || c.toNat = 13 || c.toNat = 8232 || c.toNat = 8233

/-- The decimal value of a digit string (the effect of `parseInt` on a
string of digits, idealized to exact arithmetic). -/
def natOfDigits (l : List Char) : Nat :=
  l.foldl (fun n c => n * 10 + (c.toNat - 48)) 0

/-! ## JavaScript numbers -/

/-- A JavaScript number: a finite value (idealized as an exact rational),
`Infinity`, `-Infinity`, or `NaN`. -/
inductive JSNum where
  | nan : JSNum
  | inf : JSNum
  | neginf : JSNum
  | num (q : ℚ) : JSNum
deriving DecidableEq, Repr

/-- The JavaScript `isNaN` test. -/
def JSNum.isNaN : JSNum → Bool
  | .nan => true
  | _ => false

/-- The JavaScript comparison `a >= b` (false whenever either side is NaN). -/
def JSNum.ge : JSNum → JSNum → Bool
  | .nan, _ => false
  | _, .nan => false
  | .inf, _ => true
  | _, .inf => false
  | _, .neginf => true
  | .neginf, _ => false
  | .num a, .num b => b ≤ a

/-- The test `t >= 0` used by the parser's fallback branch. -/
def JSNum.ge0 (t : JSNum) : Bool := t.ge (.num 0)

/-- The ordering induced by the sort comparator `(a, b) => a - b` under
ECMAScript `SortCompare` (a NaN comparator result is treated as 0, i.e.
"equal"): `cmpLe a b` holds when the comparator does not require `a` to be
placed after `b`. -/
def JSNum.cmpLe : JSNum → JSNum → Bool
  | .nan, _ => true
  | _, .nan => true
  | .neginf, _ => true
  | _, .neginf => false
  | _, .inf => true
  | .inf, _ => false
  | .num a, .num b => a ≤ b

/-! ## JavaScript `parseFloat` -/

/-- Exponent part of a decimal literal: given the characters after `e`/`E`,
returns the exponent value, or `none` when no well-formed exponent follows
(in which case `parseFloat` does not consume the `e`). -/
def parseExpPart (l : List Char) : Option Int :=
  match l with
  | '+' :: t => if t.takeWhile Char.isDigit = [] then none
                else some (natOfDigits (t.takeWhile Char.isDigit) : Int)
  | '-' :: t => if t.takeWhile Char.isDigit = [] then none
                else some (-(natOfDigits (t.takeWhile Char.isDigit) : Int))
  | t => if t.takeWhile Char.isDigit = [] then none
         else some (natOfDigits (t.takeWhile Char.isDigit) : Int)

/-- The unsigned part of `parseFloat`: longest prefix of the form
`Infinity`, or digits with an optional fraction and exponent.  Returns
`NaN` when no numeric prefix exists. -/
def parseFloatUnsigned (l : List Char) (neg : Bool) : JSNum :=
  if "Infinity".toList.isPrefixOf l then (if neg then .neginf else .inf)
  else
    let ip := l.takeWhile Char.isDigit
    let r1 := l.dropWhile Char.isDigit
    let fp := match r1 with
      | '.' :: t => t.takeWhile Char.isDigit
      | _ => []
    let r2 := match r1 with
      | '.' :: t => t.dropWhile Char.isDigit
      | _ => r1
    if ip = [] && fp = [] then .nan
    else
      let e : Int := match r2 with
        | 'e' :: t => (parseExpPart t).getD 0
        | 'E' :: t => (parseExpPart t).getD 0
        | _ => 0
      let m : ℚ := (natOfDigits ip : ℚ) + (natOfDigits fp : ℚ) / (10 : ℚ) ^ fp.length
      let v : ℚ := m * (10 : ℚ) ^ e
      .num (if neg then -v else v)

/-- ECMAScript `parseFloat`: skip leading whitespace, optional sign, then
the longest prefix that is a `StrDecimalLiteral`; `NaN` if there is none. -/
def jsParseFloat (l : List Char) : JSNum :=
  match l.dropWhile isJsWS with
  | '+' :: r => parseFloatUnsigned r false
  | '-' :: r => parseFloatUnsigned r true
  | r => parseFloatUnsigned r false

/-! ## JavaScript string operations -/

/-- `content.split('\n')`: split at every newline, keeping empty pieces. -/
def splitLines : List Char → List (List Char)
  | [] => [[]]
  | c :: rest =>
    if c = '\n' then [] :: splitLines rest
    else
      match splitLines rest with
      | [] => [[c]]
      | l :: ls => (c :: l) :: ls

/-- Remove leading JS whitespace. -/
def trimLeft (l : List Char) : List Char := l.dropWhile isJsWS

/-- Remove trailing JS whitespace. -/
def trimRight (l : List Char) : List Char := (l.reverse.dropWhile isJsWS).reverse

/-- `String.prototype.trim`. -/
def jsTrim (l : List Char) : List Char := trimRight (trimLeft l)

/-- Core of `split(/\s+/)`: `inSep` records whether we are inside a
whitespace run whose field has already been emitted. -/
def splitWsCore (inSep : Bool) (acc : List Char) : List Char → List (List Char)
  | [] => [acc.reverse]
  | c :: rest =>
    if isJsWS c then
      if inSep then splitWsCore true [] rest
      else acc.reverse :: splitWsCore true [] rest
    else splitWsCore false (c :: acc) rest

/-- `line.split(/\s+/)`: fields separated by maximal whitespace runs (with
an empty leading/trailing field when the string starts/ends with
whitespace, as in JavaScript). -/
def splitWsRuns (acc : List Char) (l : List Char) : List (List Char) :=
  splitWsCore false acc l

/-- `parts.slice(1).join(' ')` on the tail of a token list. -/
def joinSpace (parts : List (List Char)) : List Char :=
  List.intercalate [' '] parts

/-! ## The lyrics parser (`parseLyrics` in the server source)

The LRC line pattern is the regex `\[(\d+):(\d+)\.(\d+)\]\s*(.*)` used
unanchored: `String.prototype.match` finds the leftmost position where the
pattern matches.  `tryTagAt` attempts the bracketed part at one position,
`findTagMatch` scans left to right, and group 4 is the run of
non-line-terminator characters following the whitespace after `]`. -/

/-- Attempt to match `(\d+):(\d+)\.(\d+)\]\s*(.*)` against the characters
following a `[`.  On success returns the three digit groups and group 4. -/
def tryTagAt (l : List Char) : Option (List Char × List Char × List Char × List Char) :=
  let d1 := l.takeWhile Char.isDigit
  let r1 := l.dropWhile Char.isDigit
  if d1 = [] ∨ r1.head? ≠ some ':' then none
  else
    let r2 := r1.tail
    let d2 := r2.takeWhile Char.isDigit
    let r3 := r2.dropWhile Char.isDigit
    if d2 = [] ∨ r3.head? ≠ some '.' then none
    else
      let r4 := r3.tail
      let d3 := r4.takeWhile Char.isDigit
      let r5 := r4.dropWhile Char.isDigit
      if d3 = [] ∨ r5.head? ≠ some ']' then none
      else
        some (d1, d2, d3, (r5.tail.dropWhile isJsWS).takeWhile (fun c => !isLineTerm c))

/-- Leftmost match of the LRC regex in a line: scan for a `[` whose
successor characters complete the pattern. -/
def findTagMatch : List Char → Option (List Char × List Char × List Char × List Char)
  | [] => none
  | c :: rest =>
    if c = '[' then
      match tryTagAt rest with
      | some r => some r
      | none => findTagMatch rest
    else findTagMatch rest

/-- `line.trim().match(lrcRegex)` for one raw line.  A blank line cannot
match (the pattern requires a `[`), so the code's blank-line `continue` is
absorbed. -/
def tagMatchLine (l : List Char) : Option (List Char × List Char × List Char × List Char) :=
  findTagMatch (jsTrim l)

/-- One parsed lyric line: `{ timestamp, text, lineNumber }`. -/
structure LyricLine where
  timestamp : JSNum
  text : List Char
  lineNumber : Nat
deriving DecidableEq, Repr

/-- The timestamp `minutes * 60 + seconds + milliseconds / 100` computed
from the three digit groups (each read by `parseInt`). -/
def tagTimestamp (d1 d2 d3 : List Char) : JSNum :=
  .num ((natOfDigits d1 : ℚ) * 60 + (natOfDigits d2 : ℚ) + (natOfDigits d3 : ℚ) / 100)

/-- The LyricLine contributed by raw line `l` (0-based index `i`) in
tag-format mode, if any: the line must match the pattern and have a
non-empty trimmed group 4. -/
def lrcLine (i : Nat) (l : List Char) : Option LyricLine :=
  match tagMatchLine l with
  | some (d1, d2, d3, g4) =>
    let text := jsTrim g4
    if text ≠ [] then some ⟨tagTimestamp d1 d2 d3, text, i + 1⟩ else none
  | none => none

/-- The LyricLine contributed by raw line `l` (0-based index `i`) in
fallback mode, if any: non-blank, at least two whitespace-separated
tokens, and a leading token that `parseFloat`s to a non-NaN value `>= 0`. -/
def fallbackLine (i : Nat) (l : List Char) : Option LyricLine :=
  let t := jsTrim l
  if t = [] then none
  else
    let parts := splitWsRuns [] t
    if 2 ≤ parts.length then
      let ts := jsParseFloat (parts.headD [])
      if !ts.isNaN && ts.ge0 then some ⟨ts, joinSpace parts.tail, i + 1⟩
      else none
    else none

/-- Run a per-line extractor over the lines in order, numbering from `i`. -/
def collectLines (f : Nat → List Char → Option LyricLine) (i : Nat) :
    List (List Char) → List LyricLine
  | [] => []
  | l :: ls =>
    match f i l with
    | some e => e :: collectLines f (i + 1) ls
    | none => collectLines f (i + 1) ls

/-- The `hasLrcFormat` flag: set during the first pass when any line
matches the tag pattern. -/
def hasLrcFormat (lines : List (List Char)) : Bool :=
  lines.any (fun l => (tagMatchLine l).isSome)

/-- Stable insertion of a line before all later-sorted and after all
earlier-or-equal-sorted lines, per the comparator `a.timestamp - b.timestamp`. -/
def insertTS (x : LyricLine) : List LyricLine → List LyricLine
  | [] => [x]
  | y :: ys =>
    if JSNum.cmpLe x.timestamp y.timestamp then x :: y :: ys
    else y :: insertTS x ys

/-- `lyrics.sort((a, b) => a.timestamp - b.timestamp)`.  ECMAScript
requires `Array.prototype.sort` to be stable; the input/output behavior is
embedded as a stable insertion sort on the same comparator. -/
def stableSortTS : List LyricLine → List LyricLine
  | [] => []
  | x :: xs => insertTS x (stableSortTS xs)

/-- `parseLyrics(content)`: split into lines; first pass collects
tag-format matches and sets `hasLrcFormat`; if no line matched, a second
pass applies the plain-text fallback; finally sort by timestamp. -/
def parseLyrics (content : List Char) : List LyricLine :=
  stableSortTS
    (if hasLrcFormat (splitLines content) then collectLines lrcLine 0 (splitLines content)
     else collectLines fallbackLine 0 (splitLines content))

/-! ## The playback synchronizer (`updateLyrics` in `public/player.js`) -/

/-- The loop `for (let i = lyrics.length - 1; i >= 0; i--)` over a
reversed list: on a hit at reversed position with `xs` remaining, the
original index is `xs.length`. -/
def revScan (t : JSNum) : List LyricLine → Int
  | [] => -1
  | x :: xs => if t.ge x.timestamp then (xs.length : Int) else revScan t xs

/-- `newLyricIndex`: the reverse scan for the first (hence
highest-indexed) line with `currentTime >= timestamp`, else `-1`. -/
def findLyricIndex (lyrics : List LyricLine) (t : JSNum) : Int :=
  revScan t lyrics.reverse

/-- Repeated `updateLyrics` ticks: thread `currentLyricIndex` (initially
`-1`) through a sequence of `currentTime` values, reporting for each tick
the resolved index and whether the display changed. -/
def runSync (lyrics : List LyricLine) (st : Int) : List JSNum → List (Int × Bool)
  | [] => []
  | t :: ts =>
    let i := findLyricIndex lyrics t
    (i, decide (i ≠ st)) :: runSync lyrics i ts

/-- Modelled from the spec: the active index is "the highest index whose
timestamp is ≤ currentTime" (the last element of the ascending list of
qualifying indices), `-1` when no line qualifies — where a line qualifies
when its timestamp is ≤ `currentTime`, which is false whenever
`currentTime` is NaN. -/
def specActiveIndex (lyrics : List LyricLine) (t : JSNum) : Int :=
  match ((List.range lyrics.length).filter
      (fun i => match lyrics.get? i with
        | some e => t.ge e.timestamp
        | none => false)).getLast? with
  | some i => (i : Int)
  | none => -1

/-- Modelled from the spec: ticks resolve via `specActiveIndex` and report
a change exactly when the resolution differs from the previous one. -/
def specRun (lyrics : List LyricLine) (st : Int) : List JSNum → List (Int × Bool)
  | [] => []
  | t :: ts =>
    let i := specActiveIndex lyrics t
    (i, decide (i ≠ st)) :: specRun lyrics i ts

/-! ## The content-hash registry (server source) -/

/-- A value of the `fileHashes` map:
`{ filename, originalName, uploadDate, hash }`. -/
structure FileRecord where
  filename : String
  originalName : String
  uploadDate : String
  hash : String
deriving DecidableEq, Repr

/-- The `fileHashes` JavaScript `Map`, embedded as an insertion-ordered
association list with unique keys. -/
abbrev Registry := List (String × FileRecord)

/-- `Map.prototype.has`. -/
def mapHas (r : Registry) (h : String) : Bool := r.any (fun p => p.1 = h)

/-- `Map.prototype.get` (`none` for a missing key). -/
def mapGet? (r : Registry) (h : String) : Option FileRecord :=
  (r.find? (fun p => p.1 = h)).map (fun p => p.2)

/-- `Map.prototype.set`: replace the value at an existing key in place,
else append a new entry. -/
def mapSet (r : Registry) (h : String) (v : FileRecord) : Registry :=
  match r with
  | [] => [(h, v)]
  | (k, w) :: rest => if k = h then (k, v) :: rest else (k, w) :: mapSet rest h v

/-- The readable-file store: path ↦ bytes, `none` for an unreadable path. -/
def FileStore := String → Option (List Nat)

/-- `calculateFileHash`: read the bytes and hash them; the `try`/`catch`
turns a read failure into `null`.  The SHA-256 digest is abstracted as a
deterministic function `hashFn` of the exact bytes. -/
def calculateFileHash (hashFn : List Nat → String) (fs : FileStore)
    (path : String) : Option String :=
  (fs path).map hashFn

/-- `path.basename` (POSIX): the last `/`-separated component. -/
def pathBasename (path : String) : String :=
  String.mk ((path.toList.reverse.takeWhile (· ≠ '/')).reverse)

/-- `findDuplicateFile`: hash the file; `null` on hash failure; else the
existing record for that hash, or `null` when none exists. -/
def findDuplicateFile (hashFn : List Nat → String) (fs : FileStore)
    (reg : Registry) (path : String) : Option FileRecord :=
  match calculateFileHash hashFn fs path with
  | none => none
  | some h => mapGet? reg h

/-- `registerFile`: hash the file; `null` on hash failure (registry
unchanged); else build a record and `fileHashes.set(hash, fileInfo)` —
note the unconditional `set`.  `now` stands for
`new Date().toISOString()`. -/
def registerFile (hashFn : List Nat → String) (fs : FileStore)
    (reg : Registry) (path : String) (originalName : String) (now : String) :
    Option FileRecord × Registry :=
  match calculateFileHash hashFn fs path with
  | none => (none, reg)
  | some h =>
    let rec_ : FileRecord := ⟨pathBasename path, originalName, now, h⟩
    (some rec_, mapSet reg h rec_)

/-- A directory entry seen by `initializeFileHashes`: name, the
`stats.isFile()` flag, `stats.mtime.toISOString()`, and the bytes (or
`none` when unreadable, making `calculateFileHash` return `null`). -/
structure StartupFile where
  name : String
  isFile : Bool
  mtime : String
  bytes : Option (List Nat)

/-- One iteration of the `initializeFileHashes` loop. -/
def initStep (hashFn : List Nat → String) (reg : Registry) (e : StartupFile) : Registry :=
  if e.isFile then
    match e.bytes.map hashFn with
    | some h =>
      if mapHas reg h then reg
      else mapSet reg h ⟨e.name, e.name, e.mtime, h⟩
    | none => reg
  else reg

/-- `initializeFileHashes`: fold the startup scan over the directory
listing. -/
def initializeFileHashes (hashFn : List Nat → String) (reg : Registry)
    (files : List StartupFile) : Registry :=
  files.foldl (initStep hashFn) reg

/-! ## Basic list and trim lemmas -/

theorem dropWhile_nil_of_all {p : Char → Bool} {l : List Char}
    (h : ∀ c ∈ l, p c = true) : l.dropWhile p = [] := by
  induction l with
  | nil => rfl
  | cons c t ih =>
    rw [List.dropWhile_cons_of_pos (h c (by simp))]
    exact ih (fun x hx => h x (by simp [hx]))

theorem takeWhile_all {p : Char → Bool} {l : List Char}
    (h : ∀ c ∈ l, p c = true) : l.takeWhile p = l := by
  induction l with
  | nil => rfl
  | cons c t ih =>
    rw [List.takeWhile_cons_of_pos (h c (by simp))]
    exact congrArg _ (ih (fun x hx => h x (by simp [hx])))

theorem dropWhile_idem {p : Char → Bool} {l : List Char} :
    (l.dropWhile p).dropWhile p = l.dropWhile p := by
  induction l with
  | nil => rfl
  | cons c t ih =>
    by_cases h : p c = true
    · rw [List.dropWhile_cons_of_pos h]; exact ih
    · rw [List.dropWhile_cons_of_neg h, List.dropWhile_cons_of_neg h]

theorem mem_dropWhile_sub {p : Char → Bool} {l : List Char} {c : Char}
    (h : c ∈ l.dropWhile p) : c ∈ l :=
  List.dropWhile_subset p h

theorem mem_trimLeft_sub {l : List Char} {c : Char} (h : c ∈ trimLeft l) : c ∈ l :=
  mem_dropWhile_sub h

theorem mem_trimRight_sub {l : List Char} {c : Char} (h : c ∈ trimRight l) : c ∈ l := by
  unfold trimRight at h
  rw [List.mem_reverse] at h
  exact List.mem_reverse.mp (mem_dropWhile_sub h)

theorem mem_jsTrim_sub {l : List Char} {c : Char} (h : c ∈ jsTrim l) : c ∈ l :=
  mem_trimLeft_sub (mem_trimRight_sub h)

theorem trimLeft_idem {l : List Char} : trimLeft (trimLeft l) = trimLeft l :=
  dropWhile_idem

theorem trimRight_idem {l : List Char} : trimRight (trimRight l) = trimRight l := by
  unfold trimRight
  rw [List.reverse_reverse, dropWhile_idem]

theorem trimLeft_eq_nil_of_all {l : List Char} (h : ∀ c ∈ l, isJsWS c = true) :
    trimLeft l = [] := dropWhile_nil_of_all h

theorem trimRight_eq_nil_of_all {l : List Char} (h : ∀ c ∈ l, isJsWS c = true) :
    trimRight l = [] := by
  unfold trimRight
  rw [dropWhile_nil_of_all (fun c hc => h c (List.mem_reverse.mp hc))]
  rfl

theorem jsTrim_eq_nil_of_all {l : List Char} (h : ∀ c ∈ l, isJsWS c = true) :
    jsTrim l = [] := by
  unfold jsTrim
  rw [trimLeft_eq_nil_of_all h]
  rfl

theorem trimLeft_append_cons {a t : List Char} {c : Char} (hc : isJsWS c = false) :
    trimLeft (a ++ c :: t) = trimLeft a ++ c :: t := by
  unfold trimLeft
  rw [List.dropWhile_append]
  by_cases h : a.dropWhile isJsWS = []
  · simp [h, List.dropWhile_cons_of_neg, hc]
  · simp [h]

theorem trimRight_append_cons {a t : List Char} {c : Char} (hc : isJsWS c = false) :
    trimRight (a ++ c :: t) = a ++ c :: trimRight t := by
  unfold trimRight
  rw [show a ++ c :: t = (a ++ [c]) ++ t by simp, List.reverse_append,
    List.dropWhile_append]
  by_cases h : t.reverse.dropWhile isJsWS = []
  · simp [h, List.reverse_append, List.dropWhile_cons_of_neg, hc]
  · simp [h, List.reverse_append]

theorem trimRight_cons_of_neg {t : List Char} {c : Char} (hc : isJsWS c = false) :
    trimRight (c :: t) = c :: trimRight t := by
  have := @trimRight_append_cons [] t c hc
  simpa using this

theorem trimRight_eq_nil_iff {l : List Char} :
    trimRight l = [] ↔ ∀ c ∈ l, isJsWS c = true := by
  constructor
  · intro h c hc
    by_contra hw
    have hw' : isJsWS c = false := by
      cases hq : isJsWS c
      · rfl
      · exact absurd hq hw
    obtain ⟨a, t, rfl⟩ := List.append_of_mem hc
    rw [trimRight_append_cons hw'] at h
    simp at h
  · exact trimRight_eq_nil_of_all

theorem trimRight_cons_of_ne_nil {t : List Char} {c : Char} (ht : trimRight t ≠ []) :
    trimRight (c :: t) = c :: trimRight t := by
  unfold trimRight at ht ⊢
  rw [List.reverse_cons, List.dropWhile_append]
  have hne : t.reverse.dropWhile isJsWS ≠ [] := by
    intro hnil
    rw [hnil] at ht
    simp at ht
  simp [hne]

theorem trimLeft_trimRight_comm {l : List Char} :
    trimLeft (trimRight l) = trimRight (trimLeft l) := by
  induction l with
  | nil => rfl
  | cons c t ih =>
    by_cases h : isJsWS c = true
    · have h1 : trimLeft (c :: t) = trimLeft t := by simp [trimLeft, h]
      rw [h1]
      by_cases ht : trimRight t = []
      · have hall : ∀ x ∈ t, isJsWS x = true := trimRight_eq_nil_iff.mp ht
        have hall' : ∀ x ∈ c :: t, isJsWS x = true := by
          intro x hx
          rcases List.mem_cons.mp hx with rfl | hx'
          · exact h
          · exact hall x hx'
        rw [trimRight_eq_nil_of_all hall', trimLeft_eq_nil_of_all hall]
        rfl
      · rw [trimRight_cons_of_ne_nil ht]
        have h2 : trimLeft (c :: trimRight t) = trimLeft (trimRight t) := by
          simp [trimLeft, h]
        rw [h2, ih]
    · have h' : isJsWS c = false := by
        cases hq : isJsWS c
        · rfl
        · exact absurd hq h
      have h1 : trimLeft (c :: t) = c :: t := by simp [trimLeft, h']
      have h2 : trimLeft (c :: trimRight t) = c :: trimRight t := by simp [trimLeft, h']
      rw [h1, trimRight_cons_of_neg h', h2]

theorem jsTrim_trimmed {l : List Char} : jsTrim (jsTrim l) = jsTrim l := by
  unfold jsTrim
  rw [show trimLeft (trimRight (trimLeft l)) = trimRight (trimLeft (trimLeft l)) from
    trimLeft_trimRight_comm, trimLeft_idem, trimRight_idem]

/-! ## splitLines lemmas -/

theorem splitLines_single {l : List Char} (h : ∀ c ∈ l, c ≠ '\n') :
    splitLines l = [l] := by
  induction l with
  | nil => rfl
  | cons c rest ih =>
    rw [splitLines, if_neg (h c (by simp)),
      ih (fun x hx => h x (by simp [hx]))]

theorem mem_splitLines_sub (l : List Char) (line : List Char)
    (hline : line ∈ splitLines l) {c : Char} (hc : c ∈ line) : c ∈ l := by
  induction l generalizing line with
  | nil =>
    simp only [splitLines, List.mem_singleton] at hline
    subst hline
    cases hc
  | cons d rest ih =>
    rw [splitLines] at hline
    by_cases hd : d = '\n'
    · rw [if_pos hd] at hline
      rcases List.mem_cons.mp hline with rfl | h2
      · cases hc
      · exact List.mem_cons_of_mem _ (ih _ h2 hc)
    · rw [if_neg hd] at hline
      cases hsl : splitLines rest with
      | nil =>
        rw [hsl] at hline
        simp only [List.mem_singleton] at hline
        subst hline
        rcases List.mem_cons.mp hc with rfl | h3
        · simp
        · cases h3
      | cons l0 ls =>
        rw [hsl] at hline
        rcases List.mem_cons.mp hline with rfl | h2
        · rcases List.mem_cons.mp hc with rfl | h3
          · simp
          · exact List.mem_cons_of_mem _ (ih l0 (by rw [hsl]; simp) h3)
        · exact List.mem_cons_of_mem _ (ih line (by rw [hsl]; exact List.mem_cons_of_mem _ h2) hc)

/-! ## JSNum comparator lemmas -/

theorem JSNum.cmpLe_refl (t : JSNum) : t.cmpLe t = true := by
  cases t <;> simp [cmpLe]

theorem JSNum.cmpLe_total (a b : JSNum) : a.cmpLe b = true ∨ b.cmpLe a = true := by
  cases a <;> cases b <;> simp [cmpLe] <;> exact le_total _ _

theorem JSNum.cmpLe_trans {a b c : JSNum} (hb : b ≠ .nan)
    (h1 : a.cmpLe b = true) (h2 : b.cmpLe c = true) : a.cmpLe c = true := by
  cases a <;> cases b <;> cases c <;> simp_all [cmpLe] <;>
    first
    | rfl
    | exact le_trans h1 h2

/-! ## Stable sort lemmas -/

/-- The ordering the sorted output satisfies: non-decreasing timestamps,
and source order (encoded by `lineNumber`) preserved on ties. -/
def lyricOrd (a b : LyricLine) : Prop :=
  JSNum.cmpLe a.timestamp b.timestamp = true ∧
    (a.timestamp = b.timestamp → a.lineNumber < b.lineNumber)

theorem mem_insertTS {x z : LyricLine} {l : List LyricLine} :
    z ∈ insertTS x l ↔ z = x ∨ z ∈ l := by
  induction l with
  | nil => simp [insertTS]
  | cons y ys ih =>
    rw [insertTS]
    by_cases h : JSNum.cmpLe x.timestamp y.timestamp = true
    · rw [if_pos h]
      simp only [List.mem_cons]
    · rw [if_neg h]
      simp only [List.mem_cons, ih]
      tauto

theorem perm_insertTS (x : LyricLine) (l : List LyricLine) :
    List.Perm (insertTS x l) (x :: l) := by
  induction l with
  | nil => simp [insertTS]
  | cons y ys ih =>
    rw [insertTS]
    by_cases h : JSNum.cmpLe x.timestamp y.timestamp = true
    · rw [if_pos h]
    · rw [if_neg h]
      exact List.Perm.trans (List.Perm.cons y ih) (List.Perm.swap x y ys)

theorem perm_stableSortTS (l : List LyricLine) :
    List.Perm (stableSortTS l) l := by
  induction l with
  | nil => simp [stableSortTS]
  | cons x xs ih =>
    unfold stableSortTS
    exact List.Perm.trans (perm_insertTS x (stableSortTS xs)) (List.Perm.cons x ih)

theorem mem_stableSortTS {z : LyricLine} {l : List LyricLine} :
    z ∈ stableSortTS l ↔ z ∈ l :=
  (perm_stableSortTS l).mem_iff

theorem insertTS_pairwise {x : LyricLine} {m : List LyricLine}
    (hm : m.Pairwise lyricOrd)
    (hnan : ∀ y ∈ m, y.timestamp ≠ .nan)
    (hln : ∀ y ∈ m, x.lineNumber < y.lineNumber) :
    (insertTS x m).Pairwise lyricOrd := by
  induction m with
  | nil => simp [insertTS, List.pairwise_singleton]
  | cons y ys ih =>
    unfold insertTS
    by_cases h : JSNum.cmpLe x.timestamp y.timestamp = true
    · simp only [h, if_true]
      constructor
      · intro z hz
        rcases List.mem_cons.mp hz with rfl | hz'
        · exact ⟨h, fun _ => hln z (by simp)⟩
        · have hyz : lyricOrd y z := (List.pairwise_cons.mp hm).1 z hz'
          refine ⟨JSNum.cmpLe_trans (hnan y (by simp)) h hyz.1, ?_⟩
          intro _
          exact hln z (by simp [hz'])
      · exact hm
    · simp only [h, if_false]
      constructor
      · intro z hz
        rcases mem_insertTS.mp hz with rfl | hz'
        · have hyx : JSNum.cmpLe y.timestamp z.timestamp = true := by
            rcases JSNum.cmpLe_total z.timestamp y.timestamp with h1 | h1
            · exact absurd h1 h
            · exact h1
          refine ⟨hyx, ?_⟩
          intro heq
          exfalso
          apply h
          rw [← heq]
          exact JSNum.cmpLe_refl _
        · exact (List.pairwise_cons.mp hm).1 z hz'
      · exact ih (List.pairwise_cons.mp hm).2
          (fun z hz => hnan z (by simp [hz]))
          (fun z hz => hln z (by simp [hz]))

theorem stableSortTS_pairwise {l : List LyricLine}
    (hnan : ∀ y ∈ l, y.timestamp ≠ .nan)
    (hln : l.Pairwise (fun a b => a.lineNumber < b.lineNumber)) :
    (stableSortTS l).Pairwise lyricOrd := by
  induction l with
  | nil => simp [stableSortTS]
  | cons x xs ih =>
    unfold stableSortTS
    apply insertTS_pairwise
    · exact ih (fun y hy => hnan y (by simp [hy])) (List.pairwise_cons.mp hln).2
    · intro y hy
      exact hnan y (by simp [mem_stableSortTS.mp hy])
    · intro y hy
      exact (List.pairwise_cons.mp hln).1 y (mem_stableSortTS.mp hy)

/-! ## collectLines lemmas -/

theorem collectLines_ln_bound {f : Nat → List Char → Option LyricLine}
    (hf : ∀ i l e, f i l = some e → e.lineNumber = i + 1) :
    ∀ (i : Nat) (ls : List (List Char)) (e : LyricLine),
      e ∈ collectLines f i ls → i + 1 ≤ e.lineNumber := by
  intro i ls
  induction ls generalizing i with
  | nil => intro e he; simp [collectLines] at he
  | cons l ls ih =>
    intro e he
    unfold collectLines at he
    cases hfl : f i l with
    | some e' =>
      rw [hfl] at he
      rcases List.mem_cons.mp he with rfl | he'
      · exact le_of_eq (hf i l e hfl).symm
      · have := ih (i + 1) e he'
        omega
    | none =>
      rw [hfl] at he
      have := ih (i + 1) e he
      omega

theorem collectLines_ln_pairwise {f : Nat → List Char → Option LyricLine}
    (hf : ∀ i l e, f i l = some e → e.lineNumber = i + 1) :
    ∀ (i : Nat) (ls : List (List Char)),
      (collectLines f i ls).Pairwise (fun a b => a.lineNumber < b.lineNumber) := by
  intro i ls
  induction ls generalizing i with
  | nil => simp [collectLines]
  | cons l ls ih =>
    unfold collectLines
    cases hfl : f i l with
    | some e =>
      constructor
      · intro b hb
        have h1 := collectLines_ln_bound hf (i + 1) ls b hb
        have h2 := hf i l e hfl
        omega
      · exact ih (i + 1)
    | none => exact ih (i + 1)

theorem mem_collectLines {f : Nat → List Char → Option LyricLine} :
    ∀ {i : Nat} {ls : List (List Char)} {e : LyricLine},
      e ∈ collectLines f i ls ↔ ∃ j l, ls.get? j = some l ∧ f (i + j) l = some e := by
  intro i ls
  induction ls generalizing i with
  | nil => simp [collectLines]
  | cons l ls ih =>
    intro e
    unfold collectLines
    constructor
    · intro he
      cases hfl : f i l with
      | some e' =>
        rw [hfl] at he
        rcases List.mem_cons.mp he with rfl | he'
        · exact ⟨0, l, by simp, by simpa using hfl⟩
        · obtain ⟨j, l', hj, hfj⟩ := ih.mp he'
          exact ⟨j + 1, l', by simpa using hj, by
            have : i + 1 + j = i + (j + 1) := by omega
            rw [← this]; exact hfj⟩
      | none =>
        rw [hfl] at he
        obtain ⟨j, l', hj, hfj⟩ := ih.mp he
        exact ⟨j + 1, l', by simpa using hj, by
          have : i + 1 + j = i + (j + 1) := by omega
          rw [← this]; exact hfj⟩
    · rintro ⟨j, l', hj, hfj⟩
      cases j with
      | zero =>
        simp only [List.get?] at hj
        injection hj with hj
        subst hj
        simp only [Nat.add_zero] at hfj
        rw [hfj]
        simp
      | succ j' =>
        simp only [List.get?] at hj
        have hmem : e ∈ collectLines f (i + 1) ls := by
          apply ih.mpr
          refine ⟨j', l', hj, ?_⟩
          have : i + 1 + j' = i + (j' + 1) := by omega
          rw [this]
          exact hfj
        cases hfl : f i l
        · exact hmem
        · exact List.mem_cons_of_mem _ hmem

/-! ## Synchronizer lemmas -/

theorem revScan_none {t : JSNum} : ∀ {l : List LyricLine},
    (∀ x ∈ l, t.ge x.timestamp = false) → revScan t l = -1 := by
  intro l
  induction l with
  | nil => intro _; rfl
  | cons x xs ih =>
    intro h
    unfold revScan
    rw [h x (by simp)]
    simp only [Bool.false_eq_true, if_false]
    exact ih (fun z hz => h z (by simp [hz]))

theorem findLyricIndex_eq_spec (lyrics : List LyricLine) (t : JSNum) :
    findLyricIndex lyrics t = specActiveIndex lyrics t := by
  induction lyrics using List.reverseRecOn with
  | nil => rfl
  | append_singleton ys y ih =>
    unfold findLyricIndex at ih ⊢
    rw [List.reverse_append]
    simp only [List.reverse_singleton, List.singleton_append]
    unfold specActiveIndex
    rw [List.length_append, List.length_singleton, List.range_succ, List.filter_append]
    have hqcongr :
        (List.range ys.length).filter
            (fun i => match (ys ++ [y]).get? i with
              | some e => t.ge e.timestamp
              | none => false) =
          (List.range ys.length).filter
            (fun i => match ys.get? i with
              | some e => t.ge e.timestamp
              | none => false) := by
      apply List.filter_congr
      intro i hi
      rw [List.get?_append (List.mem_range.mp hi)]
    have hqlast :
        (match (ys ++ [y]).get? ys.length with
          | some e => t.ge e.timestamp
          | none => false) = t.ge y.timestamp := by
      rw [List.get?_concat_length]
    cases hge : t.ge y.timestamp with
    | true =>
      rw [revScan]
      rw [hge]
      simp only [if_true]
      have hfl : (List.filter
          (fun i => match (ys ++ [y]).get? i with
            | some e => t.ge e.timestamp
            | none => false) [ys.length]) = [ys.length] := by
        simp [List.filter_cons, hqlast, hge]
      rw [hfl, List.getLast?_concat]
      simp
    | false =>
      rw [revScan]
      rw [hge]
      simp only [Bool.false_eq_true, if_false]
      have hfl : (List.filter
          (fun i => match (ys ++ [y]).get? i with
            | some e => t.ge e.timestamp
            | none => false) [ys.length]) = [] := by
        simp [List.filter_cons, hqlast, hge]
      rw [hfl, List.append_nil, hqcongr, ih]
      rfl

theorem runSync_eq_specRun (lyrics : List LyricLine) :
    ∀ (times : List JSNum) (st : Int),
      runSync lyrics st times = specRun lyrics st times := by
  intro times
  induction times with
  | nil => intro st; rfl
  | cons t ts ih =>
    intro st
    simp only [runSync, specRun, findLyricIndex_eq_spec]
    exact congrArg _ (ih _)

theorem ge_eq_false_of_neg {q : ℚ} {ts : JSNum} (hq : q < 0)
    (hts : ts.ge0 = true) : (JSNum.num q).ge ts = false := by
  cases ts with
  | nan => rfl
  | inf => rfl
  | neginf => simp [JSNum.ge0, JSNum.ge] at hts
  | num b =>
    simp only [JSNum.ge0, JSNum.ge, decide_eq_true_eq] at hts
    simp only [JSNum.ge, decide_eq_false_iff_not]
    intro hle
    linarith

theorem JSNum.ge_nan_left (b : JSNum) : JSNum.ge .nan b = false := by
  cases b <;> rfl

theorem findLyricIndex_nan (lyrics : List LyricLine) :
    findLyricIndex lyrics .nan = -1 := by
  apply revScan_none
  intro x _
  exact JSNum.ge_nan_left _

theorem findLyricIndex_neg (lyrics : List LyricLine) {q : ℚ} (hq : q < 0)
    (h : ∀ e ∈ lyrics, e.timestamp.ge0 = true) :
    findLyricIndex lyrics (.num q) = -1 := by
  apply revScan_none
  intro x hx
  exact ge_eq_false_of_neg hq (h x (List.mem_reverse.mp hx))

/-! ## Registry lemmas -/

/-- "At most one FileRecord per distinct digest": the association list has
pairwise-distinct keys. -/
def keysUnique (r : Registry) : Prop :=
  List.Pairwise (fun a b => a.1 ≠ b.1) r

instance decKeysUnique (r : Registry) : Decidable (keysUnique r) :=
  inferInstanceAs (Decidable (List.Pairwise _ r))

theorem mapSet_fst_mem {h : String} {v : FileRecord} :
    ∀ {r : Registry} {b : String × FileRecord},
      b ∈ mapSet r h v → b.1 = h ∨ b.1 ∈ r.map Prod.fst := by
  intro r
  induction r with
  | nil =>
    intro b hb
    simp only [mapSet, List.mem_singleton] at hb
    simp [hb]
  | cons p rest ih =>
    intro b hb
    obtain ⟨k, w⟩ := p
    simp only [mapSet] at hb
    by_cases hk : k = h
    · rw [if_pos hk] at hb
      rcases List.mem_cons.mp hb with rfl | hb'
      · left; exact hk
      · right; simp only [List.map_cons, List.mem_cons]; right
        exact List.mem_map.mpr ⟨b, hb', rfl⟩
    · rw [if_neg hk] at hb
      rcases List.mem_cons.mp hb with rfl | hb'
      · right; simp
      · rcases ih hb' with h1 | h1
        · left; exact h1
        · right; simp only [List.map_cons, List.mem_cons]; right; exact h1

theorem keysUnique_mapSet {h : String} {v : FileRecord} :
    ∀ {r : Registry}, keysUnique r → keysUnique (mapSet r h v) := by
  intro r
  induction r with
  | nil =>
    intro _
    simp [mapSet, keysUnique]
  | cons p rest ih =>
    intro hu
    obtain ⟨k, w⟩ := p
    have hu' := (List.pairwise_cons.mp hu)
    rw [keysUnique]
    simp only [mapSet]
    by_cases hk : k = h
    · rw [if_pos hk]
      exact List.pairwise_cons.mpr ⟨fun b hb => hu'.1 b hb, hu'.2⟩
    · rw [if_neg hk]
      apply List.pairwise_cons.mpr
      constructor
      · intro b hb
        rcases mapSet_fst_mem hb with h1 | h1
        · intro hcontra
          exact hk (hcontra.trans h1)
        · obtain ⟨⟨k', w'⟩, hmem, hfst⟩ := List.mem_map.mp h1
          rw [← hfst]
          exact hu'.1 (k', w') hmem
      · exact ih hu'.2

theorem mapGet?_mapSet {h : String} {v : FileRecord} :
    ∀ (r : Registry), mapGet? (mapSet r h v) h = some v := by
  intro r
  induction r with
  | nil => simp [mapSet, mapGet?, List.find?]
  | cons p rest ih =>
    obtain ⟨k, w⟩ := p
    simp only [mapSet]
    by_cases hk : k = h
    · rw [if_pos hk]
      simp [mapGet?, List.find?, hk]
    · rw [if_neg hk]
      simp only [mapGet?, List.find?] at ih ⊢
      rw [decide_eq_false hk]
      exact ih

theorem mapGet?_isSome_of_has {r : Registry} {h : String}
    (hh : mapHas r h = true) : ∃ v, mapGet? r h = some v := by
  induction r with
  | nil => simp [mapHas] at hh
  | cons p rest ih =>
    obtain ⟨k, w⟩ := p
    by_cases hk : k = h
    · exact ⟨w, by simp [mapGet?, List.find?, hk]⟩
    · have hh' : mapHas rest h = true := by
        simp only [mapHas, List.any_cons] at hh
        rcases Bool.or_eq_true_iff.mp hh with h1 | h1
        · exact absurd (by simpa using h1) hk
        · exact h1
      obtain ⟨v, hv⟩ := ih hh'
      refine ⟨v, ?_⟩
      simp only [mapGet?, List.find?]
      rw [decide_eq_false hk]
      exact hv

theorem initStep_unreadable {hashFn : List Nat → String} {reg : Registry}
    {e : StartupFile} (he : e.bytes = none) : initStep hashFn reg e = reg := by
  simp [initStep, he]

theorem initStep_skips_present {hashFn : List Nat → String} {reg : Registry}
    {e : StartupFile} {h : String} (hf : e.isFile = true)
    (hb : e.bytes.map hashFn = some h) (hh : mapHas reg h = true) :
    initStep hashFn reg e = reg := by
  simp [initStep, hf, hb, hh]

theorem initStep_registers_absent {hashFn : List Nat → String} {reg : Registry}
    {e : StartupFile} {h : String} (hf : e.isFile = true)
    (hb : e.bytes.map hashFn = some h) (hh : mapHas reg h = false) :
    initStep hashFn reg e = mapSet reg h ⟨e.name, e.name, e.mtime, h⟩ := by
  simp [initStep, hf, hb, hh]

theorem keysUnique_initStep {hashFn : List Nat → String} {reg : Registry}
    {e : StartupFile} (hu : keysUnique reg) : keysUnique (initStep hashFn reg e) := by
  by_cases hf : e.isFile = true
  · cases hb : e.bytes.map hashFn with
    | none =>
      have : e.bytes = none := by
        cases hby : e.bytes
        · rfl
        · rw [hby] at hb; simp at hb
      rw [initStep_unreadable this]
      exact hu
    | some h =>
      by_cases hh : mapHas reg h = true
      · rw [initStep_skips_present hf hb hh]; exact hu
      · rw [Bool.not_eq_true] at hh
        rw [initStep_registers_absent hf hb hh]
        exact keysUnique_mapSet hu
  · rw [Bool.not_eq_true] at hf
    simp [initStep, hf]
    exact hu

theorem keysUnique_initializeFileHashes {hashFn : List Nat → String} :
    ∀ (files : List StartupFile) (reg : Registry), keysUnique reg →
      keysUnique (initializeFileHashes hashFn reg files) := by
  intro files
  induction files with
  | nil => intro reg hu; exact hu
  | cons e rest ih =>
    intro reg hu
    unfold initializeFileHashes at ih ⊢
    rw [List.foldl_cons]
    exact ih _ (keysUnique_initStep hu)

theorem initializeFileHashes_skip_unreadable {hashFn : List Nat → String}
    {reg : Registry} {e : StartupFile} (he : e.bytes = none)
    (pre post : List StartupFile) :
    initializeFileHashes hashFn reg (pre ++ e :: post) =
      initializeFileHashes hashFn reg (pre ++ post) := by
  unfold initializeFileHashes
  rw [List.foldl_append, List.foldl_append, List.foldl_cons,
    initStep_unreadable he]

/-! ## Tag-match lemmas -/

theorem takeWhile_digits_append {M : List Char} {c : Char} {U : List Char}
    (hMd : ∀ x ∈ M, x.isDigit = true) (hc : c.isDigit = false) :
    (M ++ c :: U).takeWhile Char.isDigit = M ∧
      (M ++ c :: U).dropWhile Char.isDigit = c :: U := by
  constructor
  · rw [List.takeWhile_append_of_pos hMd, List.takeWhile_cons_of_neg (by simp [hc])]
    simp
  · rw [List.dropWhile_append_of_pos hMd, List.dropWhile_cons_of_neg (by simp [hc])]

theorem findTagMatch_append {a l : List Char} (h : ∀ c ∈ a, c ≠ '[') :
    findTagMatch (a ++ l) = findTagMatch l := by
  induction a with
  | nil => rfl
  | cons c t ih =>
    rw [List.cons_append, findTagMatch]
    rw [if_neg (by exact h c (by simp))]
    exact ih (fun x hx => h x (by simp [hx]))

theorem tryTagAt_exact {M S F rest : List Char}
    (hMn : M ≠ []) (hMd : ∀ x ∈ M, x.isDigit = true)
    (hSn : S ≠ []) (hSd : ∀ x ∈ S, x.isDigit = true)
    (hFn : F ≠ []) (hFd : ∀ x ∈ F, x.isDigit = true) :
    tryTagAt (M ++ ':' :: (S ++ '.' :: (F ++ ']' :: rest))) =
      some (M, S, F, (rest.dropWhile isJsWS).takeWhile (fun c => !isLineTerm c)) := by
  have h1 := @takeWhile_digits_append M ':' (S ++ '.' :: (F ++ ']' :: rest)) hMd
    (show (':').isDigit = false by decide)
  have h2 := @takeWhile_digits_append S '.' (F ++ ']' :: rest) hSd
    (show ('.').isDigit = false by decide)
  have h3 := @takeWhile_digits_append F ']' rest hFd
    (show (']').isDigit = false by decide)
  unfold tryTagAt
  rw [h1.1, h1.2]
  rw [if_neg (by simp [hMn])]
  simp only [List.tail_cons]
  rw [h2.1, h2.2]
  rw [if_neg (by simp [hSn])]
  simp only [List.tail_cons]
  rw [h3.1, h3.2]
  rw [if_neg (by simp [hFn])]
  simp only [List.tail_cons]

/-- The full line-level match for a line of the shape
`pre [M:S.F] rest` (with no earlier `[` and nothing spanning lines):
the regex matches at the bracket, with groups `M`, `S`, `F` and group 4
equal to the whitespace-stripped remainder. -/
theorem tagMatchLine_shape {pre M S F rest : List Char}
    (hpre : ∀ c ∈ pre, c ≠ '[')
    (hMn : M ≠ []) (hMd : ∀ x ∈ M, x.isDigit = true)
    (hSn : S ≠ []) (hSd : ∀ x ∈ S, x.isDigit = true)
    (hFn : F ≠ []) (hFd : ∀ x ∈ F, x.isDigit = true)
    (hrest : ∀ c ∈ rest, isLineTerm c = false) :
    tagMatchLine (pre ++ '[' :: (M ++ ':' :: (S ++ '.' :: (F ++ ']' :: rest)))) =
      some (M, S, F, jsTrim rest) := by
  unfold tagMatchLine jsTrim
  have hlb : isJsWS '[' = false := by decide
  have hrb : isJsWS ']' = false := by decide
  -- trimLeft peels whitespace inside `pre` only
  rw [show trimLeft (pre ++ '[' :: (M ++ ':' :: (S ++ '.' :: (F ++ ']' :: rest)))) =
      trimLeft pre ++ '[' :: (M ++ ':' :: (S ++ '.' :: (F ++ ']' :: rest))) from
    trimLeft_append_cons hlb]
  -- trimRight peels whitespace inside `rest` only
  have hassoc : trimLeft pre ++ '[' :: (M ++ ':' :: (S ++ '.' :: (F ++ ']' :: rest))) =
      (trimLeft pre ++ '[' :: (M ++ ':' :: (S ++ '.' :: F))) ++ ']' :: rest := by
    simp
  rw [hassoc, trimRight_append_cons hrb]
  rw [show (trimLeft pre ++ '[' :: (M ++ ':' :: (S ++ '.' :: F))) ++ ']' :: trimRight rest =
      trimLeft pre ++ '[' :: (M ++ ':' :: (S ++ '.' :: (F ++ ']' :: trimRight rest))) by
    simp]
  rw [findTagMatch_append (fun c hc => hpre c (mem_trimLeft_sub hc))]
  rw [findTagMatch]
  rw [if_pos rfl]
  rw [tryTagAt_exact hMn hMd hSn hSd hFn hFd]
  have htake : ((trimRight rest).dropWhile isJsWS).takeWhile (fun c => !isLineTerm c) =
      (trimRight rest).dropWhile isJsWS := by
    apply takeWhile_all
    intro c hc
    have : c ∈ rest := mem_trimRight_sub (mem_dropWhile_sub hc)
    simp [hrest c this]
  rw [htake]
  have : (trimRight rest).dropWhile isJsWS = trimRight (trimLeft rest) := by
    rw [show (trimRight rest).dropWhile isJsWS = trimLeft (trimRight rest) from rfl]
    exact trimLeft_trimRight_comm
  rw [this]

/-- Parsing a single line of the shape `pre [M:S.F] rest`: the file is
detected as tag-formatted and yields exactly the one line (or none when
the remainder trims to empty), with the timestamp formula
`parseInt(M) * 60 + parseInt(S) + parseInt(F) / 100`. -/
theorem parseLyrics_tag_line {pre M S F rest : List Char}
    (hpre1 : ∀ c ∈ pre, c ≠ '[') (hpre2 : ∀ c ∈ pre, c ≠ '\n')
    (hMn : M ≠ []) (hMd : ∀ x ∈ M, x.isDigit = true)
    (hSn : S ≠ []) (hSd : ∀ x ∈ S, x.isDigit = true)
    (hFn : F ≠ []) (hFd : ∀ x ∈ F, x.isDigit = true)
    (hrest : ∀ c ∈ rest, isLineTerm c = false) :
    hasLrcFormat (splitLines (pre ++ '[' :: (M ++ ':' :: (S ++ '.' :: (F ++ ']' :: rest))))) = true ∧
    parseLyrics (pre ++ '[' :: (M ++ ':' :: (S ++ '.' :: (F ++ ']' :: rest)))) =
      (if jsTrim rest = [] then []
       else [⟨tagTimestamp M S F, jsTrim rest, 1⟩]) := by
  set line := pre ++ '[' :: (M ++ ':' :: (S ++ '.' :: (F ++ ']' :: rest))) with hline
  have hdigit_ne : ∀ (x : Char), x.isDigit = true → x ≠ '\n' := by
    intro x hx hcontra
    rw [hcontra] at hx
    simp [Char.isDigit] at hx
  have hnl : ∀ c ∈ line, c ≠ '\n' := by
    intro c hc
    rw [hline] at hc
    simp only [List.mem_append, List.mem_cons] at hc
    rcases hc with h | rfl | h | rfl | h | rfl | h | rfl | h
    · exact hpre2 c h
    · decide
    · exact hdigit_ne c (hMd c h)
    · decide
    · exact hdigit_ne c (hSd c h)
    · decide
    · exact hdigit_ne c (hFd c h)
    · decide
    · intro hcontra
      rw [hcontra] at h
      have := hrest '\n' h
      simp [isLineTerm] at this
  have hsplit : splitLines line = [line] := splitLines_single hnl
  have hmatch : tagMatchLine line = some (M, S, F, jsTrim rest) :=
    tagMatchLine_shape hpre1 hMn hMd hSn hSd hFn hFd hrest
  have hhas : hasLrcFormat [line] = true := by
    simp [hasLrcFormat, hmatch]
  have hlrc : lrcLine 0 line =
      if jsTrim rest = [] then none
      else some ⟨tagTimestamp M S F, jsTrim rest, 1⟩ := by
    unfold lrcLine
    rw [hmatch]
    simp only [jsTrim_trimmed]
    by_cases h : jsTrim rest = []
    · rw [if_neg (by simp [h]), if_pos h]
    · rw [if_pos (by simp [h]), if_neg h]
  refine ⟨by rw [hsplit]; exact hhas, ?_⟩
  unfold parseLyrics
  rw [hsplit, hhas, if_pos rfl]
  rw [collectLines]
  by_cases h : jsTrim rest = []
  · rw [hlrc, if_pos h, if_pos h]
    rfl
  · rw [hlrc, if_neg h, if_neg h]
    rfl

/-! ## Per-line extractor characterizations -/

theorem lrcLine_eq_some_iff {i : Nat} {l : List Char} {e : LyricLine} :
    lrcLine i l = some e ↔
      ∃ d1 d2 d3 g4, tagMatchLine l = some (d1, d2, d3, g4) ∧ jsTrim g4 ≠ [] ∧
        e = ⟨tagTimestamp d1 d2 d3, jsTrim g4, i + 1⟩ := by
  unfold lrcLine
  cases htm : tagMatchLine l with
  | none => simp
  | some r =>
    obtain ⟨d1, d2, d3, g4⟩ := r
    dsimp only
    by_cases hg : jsTrim g4 ≠ []
    · rw [if_pos hg]
      constructor
      · intro he
        exact ⟨d1, d2, d3, g4, rfl, hg, (Option.some_inj.mp he).symm⟩
      · rintro ⟨d1', d2', d3', g4', heq, _, he⟩
        simp only [Option.some_inj, Prod.mk.injEq] at heq
        obtain ⟨rfl, rfl, rfl, rfl⟩ := heq
        rw [he]
    · rw [if_neg hg]
      simp only [false_iff, reduceCtorEq]
      push_neg at hg
      rintro ⟨d1', d2', d3', g4', heq, hne, _⟩
      simp only [Option.some_inj, Prod.mk.injEq] at heq
      obtain ⟨rfl, rfl, rfl, rfl⟩ := heq
      exact hne hg

theorem fallbackLine_eq_some_iff {i : Nat} {l : List Char} {e : LyricLine} :
    fallbackLine i l = some e ↔
      jsTrim l ≠ [] ∧ 2 ≤ (splitWsRuns [] (jsTrim l)).length ∧
      (jsParseFloat ((splitWsRuns [] (jsTrim l)).headD [])).isNaN = false ∧
      (jsParseFloat ((splitWsRuns [] (jsTrim l)).headD [])).ge0 = true ∧
      e = ⟨jsParseFloat ((splitWsRuns [] (jsTrim l)).headD []),
           joinSpace (splitWsRuns [] (jsTrim l)).tail, i + 1⟩ := by
  unfold fallbackLine
  by_cases h1 : jsTrim l = []
  · rw [if_pos h1]
    simp [h1]
  · rw [if_neg h1]
    dsimp only
    by_cases h2 : 2 ≤ (splitWsRuns [] (jsTrim l)).length
    · rw [if_pos h2]
      by_cases h3 : (jsParseFloat ((splitWsRuns [] (jsTrim l)).headD [])).isNaN = false ∧
          (jsParseFloat ((splitWsRuns [] (jsTrim l)).headD [])).ge0 = true
      · rw [if_pos (by rw [h3.1, h3.2]; rfl)]
        constructor
        · intro he
          exact ⟨h1, h2, h3.1, h3.2, (Option.some_inj.mp he).symm⟩
        · rintro ⟨_, _, _, _, he⟩
          rw [he]
      · rw [if_neg (by
          intro hcontra
          rcases Bool.and_eq_true_iff.mp hcontra with ⟨ha, hb⟩
          exact h3 ⟨by simpa using ha, hb⟩)]
        simp only [false_iff, reduceCtorEq]
        rintro ⟨_, _, ha, hb, _⟩
        exact h3 ⟨ha, hb⟩
    · rw [if_neg h2]
      simp only [false_iff, reduceCtorEq]
      rintro ⟨_, hc, _⟩
      exact h2 hc

theorem lrcLine_lineNumber {i : Nat} {l : List Char} {e : LyricLine}
    (h : lrcLine i l = some e) : e.lineNumber = i + 1 := by
  obtain ⟨_, _, _, _, _, _, rfl⟩ := lrcLine_eq_some_iff.mp h
  rfl

theorem fallbackLine_lineNumber {i : Nat} {l : List Char} {e : LyricLine}
    (h : fallbackLine i l = some e) : e.lineNumber = i + 1 := by
  obtain ⟨_, _, _, _, rfl⟩ := fallbackLine_eq_some_iff.mp h
  rfl

theorem JSNum.ne_nan_of_isNaN_false {t : JSNum} (h : t.isNaN = false) : t ≠ .nan := by
  cases t <;> simp_all [isNaN]

theorem lrcLine_not_nan {i : Nat} {l : List Char} {e : LyricLine}
    (h : lrcLine i l = some e) : e.timestamp ≠ .nan := by
  obtain ⟨d1, d2, d3, _, _, _, rfl⟩ := lrcLine_eq_some_iff.mp h
  simp [tagTimestamp]

theorem fallbackLine_not_nan {i : Nat} {l : List Char} {e : LyricLine}
    (h : fallbackLine i l = some e) : e.timestamp ≠ .nan := by
  obtain ⟨_, _, hnan, _, rfl⟩ := fallbackLine_eq_some_iff.mp h
  exact JSNum.ne_nan_of_isNaN_false hnan

/-! ## Global parser invariants -/

/-- Key invariant behind the sortedness and stability claims. -/
theorem parseLyrics_pairwise (content : List Char) :
    (parseLyrics content).Pairwise lyricOrd := by
  unfold parseLyrics
  by_cases h : hasLrcFormat (splitLines content) = true
  · rw [h, if_pos rfl]
    apply stableSortTS_pairwise
    · intro y hy
      obtain ⟨j, l, _, hf⟩ := mem_collectLines.mp hy
      exact lrcLine_not_nan hf
    · exact collectLines_ln_pairwise (fun i l e => lrcLine_lineNumber) 0 _
  · rw [Bool.not_eq_true] at h
    rw [h, if_neg (by simp)]
    apply stableSortTS_pairwise
    · intro y hy
      obtain ⟨j, l, _, hf⟩ := mem_collectLines.mp hy
      exact fallbackLine_not_nan hf
    · exact collectLines_ln_pairwise (fun i l e => fallbackLine_lineNumber) 0 _

theorem collectLines_nil_of_none {f : Nat → List Char → Option LyricLine} :
    ∀ {i : Nat} {ls : List (List Char)},
      (∀ j l, l ∈ ls → f j l = none) → collectLines f i ls = [] := by
  intro i ls
  induction ls generalizing i with
  | nil => intro _; rfl
  | cons l rest ih =>
    intro h
    unfold collectLines
    rw [h i l (by simp)]
    exact ih (fun j x hx => h j x (by simp [hx]))

/-- Whitespace-only input (every character is JS whitespace) parses to the
empty sequence. -/
theorem parseLyrics_ws_only {content : List Char}
    (h : ∀ c ∈ content, isJsWS c = true) : parseLyrics content = [] := by
  have hlines : ∀ l ∈ splitLines content, jsTrim l = [] := by
    intro l hl
    exact jsTrim_eq_nil_of_all (fun c hc => h c (mem_splitLines_sub content l hl hc))
  have htag : ∀ l ∈ splitLines content, tagMatchLine l = none := by
    intro l hl
    unfold tagMatchLine
    rw [hlines l hl]
    rfl
  have hhas : hasLrcFormat (splitLines content) = false := by
    unfold hasLrcFormat
    rw [List.any_eq_false]
    intro l hl
    rw [htag l hl]
    simp
  unfold parseLyrics
  rw [hhas, if_neg (by simp)]
  rw [collectLines_nil_of_none (fun j l hl => by
    unfold fallbackLine
    rw [if_pos (hlines l hl)])]
  rfl

/-! ## Claim theorems -/

/-- C1: for every line accepted in tag mode as `[M:S.F] text`, the
timestamp is `M*60 + S + (integer value of F)/100` regardless of how many
digits `F` has; `[00:01.50]` yields 1.5, `[00:00.25]` yields 0.25, and the
one-digit `[00:01.5]` yields 1.05, not 1.5. -/
theorem c1_tag_timestamp_hundredths :
    (∀ (M S F rest : List Char),
      M ≠ [] → (∀ x ∈ M, x.isDigit = true) →
      S ≠ [] → (∀ x ∈ S, x.isDigit = true) →
      F ≠ [] → (∀ x ∈ F, x.isDigit = true) →
      (∀ c ∈ rest, isLineTerm c = false) → jsTrim rest ≠ [] →
      parseLyrics ('[' :: (M ++ ':' :: (S ++ '.' :: (F ++ ']' :: rest)))) =
        [⟨.num ((natOfDigits M : ℚ) * 60 + (natOfDigits S : ℚ) +
            (natOfDigits F : ℚ) / 100), jsTrim rest, 1⟩]) ∧
    parseLyrics "[00:01.50] hello".toList = [⟨.num (3/2 : ℚ), "hello".toList, 1⟩] ∧
    parseLyrics "[00:00.25] world".toList = [⟨.num (1/4 : ℚ), "world".toList, 1⟩] ∧
    parseLyrics "[00:01.5] x".toList = [⟨.num (21/20 : ℚ), "x".toList, 1⟩] ∧
    parseLyrics "[00:01.50] hello\n[00:00.25] world".toList =
      [⟨.num (1/4 : ℚ), "world".toList, 2⟩, ⟨.num (3/2 : ℚ), "hello".toList, 1⟩] ∧
    (21 : ℚ)/20 ≠ 3/2 := by
  refine ⟨?_, by decide, by decide, by decide, by decide, by decide⟩
  intro M S F rest hMn hMd hSn hSd hFn hFd hrest hne
  have h := (@parseLyrics_tag_line [] M S F rest (by simp) (by simp)
    hMn hMd hSn hSd hFn hFd hrest).2
  simp only [List.nil_append] at h
  rw [h, if_neg hne]
  rfl

/-- Witness for C1: the general formula applied at `[7:3.125] go` (a
three-digit fractional group, divided by 100 rather than 1000). -/
theorem c1_tag_timestamp_hundredths_witness :
    parseLyrics ('[' :: ("7".toList ++ ':' :: ("3".toList ++ '.' ::
        ("125".toList ++ ']' :: " go".toList)))) =
      [⟨.num ((natOfDigits "7".toList : ℚ) * 60 + (natOfDigits "3".toList : ℚ) +
          (natOfDigits "125".toList : ℚ) / 100), jsTrim " go".toList, 1⟩] :=
  c1_tag_timestamp_hundredths.1 "7".toList "3".toList "125".toList " go".toList
    (by decide) (by decide) (by decide) (by decide) (by decide) (by decide)
    (by decide) (by decide)

/-- C10: the tag pattern matches anywhere in a line, not only as a prefix:
arbitrary non-`[` text before the bracketed tag still counts as
tag-formatted (turning tag mode on for the file) and the produced text is
the trimmed remainder after the tag — the text before the tag is
discarded. -/
theorem c10_tag_match_anywhere (pre M S F rest : List Char)
    (hpre1 : ∀ c ∈ pre, c ≠ '[') (hpre2 : ∀ c ∈ pre, c ≠ '\n')
    (hMn : M ≠ []) (hMd : ∀ x ∈ M, x.isDigit = true)
    (hSn : S ≠ []) (hSd : ∀ x ∈ S, x.isDigit = true)
    (hFn : F ≠ []) (hFd : ∀ x ∈ F, x.isDigit = true)
    (hrest : ∀ c ∈ rest, isLineTerm c = false) :
    hasLrcFormat (splitLines (pre ++ '[' :: (M ++ ':' :: (S ++ '.' :: (F ++ ']' :: rest))))) = true ∧
    parseLyrics (pre ++ '[' :: (M ++ ':' :: (S ++ '.' :: (F ++ ']' :: rest)))) =
      (if jsTrim rest = [] then []
       else [⟨tagTimestamp M S F, jsTrim rest, 1⟩]) :=
  parseLyrics_tag_line hpre1 hpre2 hMn hMd hSn hSd hFn hFd hrest

/-- Witness for C10: `xx no tag [02:03.7] yo ` parses to one line with
text `yo`; the prefix before the bracket is dropped. -/
theorem c10_tag_match_anywhere_witness :
    hasLrcFormat (splitLines ("xx no tag ".toList ++ '[' :: ("02".toList ++ ':' ::
        ("03".toList ++ '.' :: ("7".toList ++ ']' :: " yo ".toList))))) = true ∧
    parseLyrics ("xx no tag ".toList ++ '[' :: ("02".toList ++ ':' ::
        ("03".toList ++ '.' :: ("7".toList ++ ']' :: " yo ".toList)))) =
      (if jsTrim " yo ".toList = [] then []
       else [⟨tagTimestamp "02".toList "03".toList "7".toList, jsTrim " yo ".toList, 1⟩]) :=
  c10_tag_match_anywhere "xx no tag ".toList "02".toList "03".toList "7".toList " yo ".toList
    (by decide) (by decide) (by decide) (by decide) (by decide) (by decide)
    (by decide) (by decide) (by decide)

/-- C3: tag-format detection is global: if any line of the input matches
the tag pattern, the output is exactly the sorted tag-mode entries — every
tag-matching line with non-empty trimmed remainder contributes, every
other line is dropped, and the fallback pass is never applied. -/
theorem c3_global_tag_detection (content : List Char)
    (h : ∃ l ∈ splitLines content, (tagMatchLine l).isSome = true) :
    hasLrcFormat (splitLines content) = true ∧
    parseLyrics content = stableSortTS (collectLines lrcLine 0 (splitLines content)) ∧
    (∀ e : LyricLine, e ∈ parseLyrics content ↔
      ∃ j l d1 d2 d3 g4, (splitLines content).get? j = some l ∧
        tagMatchLine l = some (d1, d2, d3, g4) ∧ jsTrim g4 ≠ [] ∧
        e = ⟨tagTimestamp d1 d2 d3, jsTrim g4, j + 1⟩) := by
  have hhas : hasLrcFormat (splitLines content) = true := by
    unfold hasLrcFormat
    rw [List.any_eq_true]
    obtain ⟨l, hl, hsome⟩ := h
    exact ⟨l, hl, hsome⟩
  have heq : parseLyrics content =
      stableSortTS (collectLines lrcLine 0 (splitLines content)) := by
    unfold parseLyrics
    rw [hhas, if_pos rfl]
  refine ⟨hhas, heq, ?_⟩
  intro e
  rw [heq, mem_stableSortTS, mem_collectLines]
  constructor
  · rintro ⟨j, l, hj, hf⟩
    rw [Nat.zero_add] at hf
    obtain ⟨d1, d2, d3, g4, htm, hg, he⟩ := lrcLine_eq_some_iff.mp hf
    exact ⟨j, l, d1, d2, d3, g4, hj, htm, hg, he⟩
  · rintro ⟨j, l, d1, d2, d3, g4, hj, htm, hg, he⟩
    refine ⟨j, l, hj, ?_⟩
    rw [Nat.zero_add]
    exact lrcLine_eq_some_iff.mpr ⟨d1, d2, d3, g4, htm, hg, he⟩

/-- Witness for C3: the spec's mixed-mode example `[00:01.00] a` plus a
plain-text line yields exactly the tag line; the plain line is dropped
rather than fallback-parsed. -/
theorem c3_global_tag_detection_witness :
    (∃ l ∈ splitLines "[00:01.00] a\nplain text line".toList,
      (tagMatchLine l).isSome = true) ∧
    hasLrcFormat (splitLines "[00:01.00] a\nplain text line".toList) = true ∧
    parseLyrics "[00:01.00] a\nplain text line".toList =
      [⟨.num (1 : ℚ), "a".toList, 1⟩] :=
  ⟨by decide, (c3_global_tag_detection _ (by decide)).1, by decide⟩

/-- C5: for every input, the parse output is sorted ascending by
timestamp (per the sort comparator), and lines with equal timestamps keep
their original source-line order. -/
theorem c5_sorted_stable (content : List Char) :
    (parseLyrics content).Pairwise (fun a b =>
      JSNum.cmpLe a.timestamp b.timestamp = true ∧
        (a.timestamp = b.timestamp → a.lineNumber < b.lineNumber)) :=
  parseLyrics_pairwise content

/-- C7: parse is total: for every input it returns an ordered sequence
(here: the output is always timestamp-sorted), and empty or
whitespace-only input yields the empty sequence rather than an error. -/
theorem c7_parse_total (content : List Char) :
    (parseLyrics content).Pairwise (fun a b =>
      JSNum.cmpLe a.timestamp b.timestamp = true) ∧
    ((∀ c ∈ content, isJsWS c = true) → parseLyrics content = []) := by
  constructor
  · exact (parseLyrics_pairwise content).imp (fun h => h.1)
  · exact parseLyrics_ws_only

/-- Witness for C7: whitespace-only input parses to the empty sequence. -/
theorem c7_parse_total_witness :
    (∀ c ∈ "  \n\t \n".toList, isJsWS c = true) ∧
    parseLyrics "  \n\t \n".toList = [] :=
  ⟨by decide, (c7_parse_total "  \n\t \n".toList).2 (by decide)⟩

/-- C6: when no line matches the tag pattern, a line yields a LyricLine
iff it is non-blank, splits into at least two whitespace-separated tokens,
and its leading token `parseFloat`s to a non-NaN value `>= 0`; the value
is the timestamp and the space-joined remaining tokens are the text; all
other lines are skipped. -/
theorem c6_fallback_characterization (content : List Char)
    (h : hasLrcFormat (splitLines content) = false) :
    parseLyrics content = stableSortTS (collectLines fallbackLine 0 (splitLines content)) ∧
    (∀ e : LyricLine, e ∈ parseLyrics content ↔
      ∃ j l, (splitLines content).get? j = some l ∧
        jsTrim l ≠ [] ∧ 2 ≤ (splitWsRuns [] (jsTrim l)).length ∧
        (jsParseFloat ((splitWsRuns [] (jsTrim l)).headD [])).isNaN = false ∧
        (jsParseFloat ((splitWsRuns [] (jsTrim l)).headD [])).ge0 = true ∧
        e = ⟨jsParseFloat ((splitWsRuns [] (jsTrim l)).headD []),
             joinSpace (splitWsRuns [] (jsTrim l)).tail, j + 1⟩) := by
  have heq : parseLyrics content =
      stableSortTS (collectLines fallbackLine 0 (splitLines content)) := by
    unfold parseLyrics
    rw [h, if_neg (by simp)]
  refine ⟨heq, ?_⟩
  intro e
  rw [heq, mem_stableSortTS, mem_collectLines]
  constructor
  · rintro ⟨j, l, hj, hf⟩
    rw [Nat.zero_add] at hf
    obtain ⟨h1, h2, h3, h4, h5⟩ := fallbackLine_eq_some_iff.mp hf
    exact ⟨j, l, hj, h1, h2, h3, h4, h5⟩
  · rintro ⟨j, l, hj, h1, h2, h3, h4, h5⟩
    refine ⟨j, l, hj, ?_⟩
    rw [Nat.zero_add]
    exact fallbackLine_eq_some_iff.mpr ⟨h1, h2, h3, h4, h5⟩

/-- Witness for C6: the spec's fallback example — `0.5 hi there` and
`2 bye` are kept, `notanumber skip this` is dropped. -/
theorem c6_fallback_characterization_witness :
    hasLrcFormat (splitLines "0.5 hi there\nnotanumber skip this\n2 bye".toList) = false ∧
    parseLyrics "0.5 hi there\nnotanumber skip this\n2 bye".toList =
      stableSortTS (collectLines fallbackLine 0
        (splitLines "0.5 hi there\nnotanumber skip this\n2 bye".toList)) ∧
    parseLyrics "0.5 hi there\nnotanumber skip this\n2 bye".toList =
      [⟨.num (1/2 : ℚ), "hi there".toList, 1⟩, ⟨.num (2 : ℚ), "bye".toList, 3⟩] :=
  ⟨by decide, (c6_fallback_characterization _ (by decide)).1, by decide⟩

/-- C4: for lyric sequences with non-negative timestamps, each tick
resolves the active index exactly as "the highest index whose timestamp is
≤ currentTime, else −1" (so NaN or negative currentTime yields −1), and a
run of ticks reports a change exactly when the resolved index differs from
the previously resolved one. -/
theorem c4_sync_resolution (lyrics : List LyricLine) (times : List JSNum)
    (h : ∀ e ∈ lyrics, e.timestamp.ge0 = true) :
    (∀ t : JSNum, findLyricIndex lyrics t = specActiveIndex lyrics t) ∧
    runSync lyrics (-1) times = specRun lyrics (-1) times ∧
    findLyricIndex lyrics .nan = -1 ∧
    (∀ q : ℚ, q < 0 → findLyricIndex lyrics (.num q) = -1) :=
  ⟨fun t => findLyricIndex_eq_spec lyrics t,
   runSync_eq_specRun lyrics times (-1),
   findLyricIndex_nan lyrics,
   fun _ hq => findLyricIndex_neg lyrics hq h⟩

/-- Witness for C4: timestamps `[0, 10, 20]` and currentTime `−1, 0, 5,
10, 25` resolve to `−1, 0, 0, 1, 2` with changes exactly at the
`−1→0`, `0→1` and `1→2` transitions. -/
theorem c4_sync_resolution_witness :
    (∀ e ∈ ([⟨.num 0, "a".toList, 1⟩, ⟨.num 10, "b".toList, 2⟩,
        ⟨.num 20, "c".toList, 3⟩] : List LyricLine), e.timestamp.ge0 = true) ∧
    runSync [⟨.num 0, "a".toList, 1⟩, ⟨.num 10, "b".toList, 2⟩, ⟨.num 20, "c".toList, 3⟩]
        (-1) [.num (-1), .num 0, .num 5, .num 10, .num 25] =
      specRun [⟨.num 0, "a".toList, 1⟩, ⟨.num 10, "b".toList, 2⟩, ⟨.num 20, "c".toList, 3⟩]
        (-1) [.num (-1), .num 0, .num 5, .num 10, .num 25] ∧
    runSync [⟨.num 0, "a".toList, 1⟩, ⟨.num 10, "b".toList, 2⟩, ⟨.num 20, "c".toList, 3⟩]
        (-1) [.num (-1), .num 0, .num 5, .num 10, .num 25] =
      [(-1, false), (0, true), (0, false), (1, true), (2, true)] :=
  ⟨by decide,
   (c4_sync_resolution _ [.num (-1), .num 0, .num 5, .num 10, .num 25] (by decide)).2.1,
   by decide⟩

/-- C2 counterexample: `registerFile` does NOT fail on a duplicate digest.
Two paths with identical bytes hash identically; the second `registerFile`
returns a fresh record (no error) and `fileHashes.set` replaces the
previously stored record. -/
theorem c2_register_overwrites :
    (registerFile (fun b => if b = [1, 2, 3] then "h123" else "hX")
        (fun p => if p = "uploads/1-a.txt" ∨ p = "uploads/2-b.txt" then some [1, 2, 3] else none)
        [] "uploads/1-a.txt" "a.txt" "t1" =
      (some ⟨"1-a.txt", "a.txt", "t1", "h123"⟩,
        [("h123", ⟨"1-a.txt", "a.txt", "t1", "h123"⟩)])) ∧
    (registerFile (fun b => if b = [1, 2, 3] then "h123" else "hX")
        (fun p => if p = "uploads/1-a.txt" ∨ p = "uploads/2-b.txt" then some [1, 2, 3] else none)
        [("h123", ⟨"1-a.txt", "a.txt", "t1", "h123"⟩)] "uploads/2-b.txt" "b.txt" "t2" =
      (some ⟨"2-b.txt", "b.txt", "t2", "h123"⟩,
        [("h123", ⟨"2-b.txt", "b.txt", "t2", "h123"⟩)])) ∧
    (⟨"2-b.txt", "b.txt", "t2", "h123"⟩ : FileRecord) ≠
      ⟨"1-a.txt", "a.txt", "t1", "h123"⟩ := by
  decide

/-- C2 amended: a second `registerFile` with an already-present digest
does not raise; it creates a new record and overwrites the stored one
(last write wins), and the registry still holds at most one record per
digest. -/
theorem c2_register_last_write_wins (hashFn : List Nat → String) (fs : FileStore)
    (reg : Registry) (path originalName now h : String)
    (hcalc : calculateFileHash hashFn fs path = some h)
    (hhas : mapHas reg h = true) (hu : keysUnique reg) :
    registerFile hashFn fs reg path originalName now =
      (some ⟨pathBasename path, originalName, now, h⟩,
        mapSet reg h ⟨pathBasename path, originalName, now, h⟩) ∧
    mapGet? (mapSet reg h ⟨pathBasename path, originalName, now, h⟩) h =
      some ⟨pathBasename path, originalName, now, h⟩ ∧
    (∃ old, mapGet? reg h = some old) ∧
    keysUnique (mapSet reg h ⟨pathBasename path, originalName, now, h⟩) := by
  refine ⟨?_, mapGet?_mapSet reg, mapGet?_isSome_of_has hhas, keysUnique_mapSet hu⟩
  unfold registerFile
  rw [hcalc]

/-- Witness for C2's amended claim at a concrete duplicate upload. -/
theorem c2_register_last_write_wins_witness :
    calculateFileHash (fun b => if b = [1, 2, 3] then "h123" else "hX")
        (fun p => if p = "uploads/2-b.txt" then some [1, 2, 3] else none)
        "uploads/2-b.txt" = some "h123" ∧
    mapHas [("h123", ⟨"1-a.txt", "a.txt", "t1", "h123"⟩)] "h123" = true ∧
    registerFile (fun b => if b = [1, 2, 3] then "h123" else "hX")
        (fun p => if p = "uploads/2-b.txt" then some [1, 2, 3] else none)
        [("h123", ⟨"1-a.txt", "a.txt", "t1", "h123"⟩)] "uploads/2-b.txt" "b.txt" "t2" =
      (some ⟨pathBasename "uploads/2-b.txt", "b.txt", "t2", "h123"⟩,
        mapSet [("h123", ⟨"1-a.txt", "a.txt", "t1", "h123"⟩)] "h123"
          ⟨pathBasename "uploads/2-b.txt", "b.txt", "t2", "h123"⟩) :=
  ⟨by decide, by decide,
   (c2_register_last_write_wins _ _ _ _ "b.txt" "t2" "h123"
     (by decide) (by decide) (by decide)).1⟩

/-- C8 counterexample: a hash failure is NOT surfaced as an error.
`findDuplicateFile` on an unreadable path returns `null` — the very value
returned for a readable file whose content is absent from the registry —
and `registerFile` returns `null` leaving the registry unchanged. -/
theorem c8_hash_failure_silent :
    findDuplicateFile (fun _ => "h") (fun p => if p = "uploads/good.txt" then some [7] else none)
      [] "uploads/unreadable.txt" = none ∧
    findDuplicateFile (fun _ => "h") (fun p => if p = "uploads/good.txt" then some [7] else none)
      [] "uploads/good.txt" = none ∧
    registerFile (fun _ => "h") (fun p => if p = "uploads/good.txt" then some [7] else none)
      [("k", ⟨"f.mp3", "f.mp3", "t0", "k"⟩)] "uploads/unreadable.txt" "u.txt" "t1" =
      (none, [("k", ⟨"f.mp3", "f.mp3", "t0", "k"⟩)]) := by
  decide

/-- C8 amended: when the bytes are unreadable, `calculateFileHash`
returns `null` (after logging), and `findDuplicateFile` / `registerFile`
return `null` — indistinguishable from absence — leaving the registry
unchanged; no error value is propagated. -/
theorem c8_hash_failure_returns_null (hashFn : List Nat → String) (fs : FileStore)
    (reg : Registry) (path originalName now : String) (h : fs path = none) :
    calculateFileHash hashFn fs path = none ∧
    findDuplicateFile hashFn fs reg path = none ∧
    registerFile hashFn fs reg path originalName now = (none, reg) := by
  have hc : calculateFileHash hashFn fs path = none := by
    unfold calculateFileHash
    rw [h]
    rfl
  refine ⟨hc, ?_, ?_⟩
  · unfold findDuplicateFile
    rw [hc]
  · unfold registerFile
    rw [hc]

/-- Witness for C8's amended claim on a store with no readable files. -/
theorem c8_hash_failure_returns_null_witness :
    ((fun _ : String => (none : Option (List Nat))) "uploads/x.lrc" = none) ∧
    findDuplicateFile (fun _ => "h") (fun _ => none) [] "uploads/x.lrc" = none ∧
    registerFile (fun _ => "h") (fun _ => none) [] "uploads/x.lrc" "x.lrc" "t" = (none, []) :=
  ⟨rfl, (c8_hash_failure_returns_null (fun _ => "h") (fun _ => none) [] _ "x.lrc" "t" rfl).2.1,
   (c8_hash_failure_returns_null (fun _ => "h") (fun _ => none) [] _ "x.lrc" "t" rfl).2.2⟩

/-- C9: the startup bulk load registers a record only for digests not
already present (so the registry keeps at most one record per digest), and
a hashing failure on one file leaves the registry untouched for that file
without aborting the load of the remaining files. -/
theorem c9_bulk_load (hashFn : List Nat → String) (files : List StartupFile)
    (reg : Registry) (hu : keysUnique reg) :
    keysUnique (initializeFileHashes hashFn reg files) ∧
    (∀ (pre post : List StartupFile) (e : StartupFile), e.bytes = none →
      files = pre ++ e :: post →
      initializeFileHashes hashFn reg files = initializeFileHashes hashFn reg (pre ++ post)) ∧
    (∀ (r : Registry) (e : StartupFile) (h : String), e.isFile = true →
      e.bytes.map hashFn = some h → mapHas r h = true →
      initStep hashFn r e = r) ∧
    (∀ (r : Registry) (e : StartupFile) (h : String), e.isFile = true →
      e.bytes.map hashFn = some h → mapHas r h = false →
      initStep hashFn r e = mapSet r h ⟨e.name, e.name, e.mtime, h⟩) := by
  refine ⟨keysUnique_initializeFileHashes files reg hu, ?_, ?_, ?_⟩
  · rintro pre post e he rfl
    exact initializeFileHashes_skip_unreadable he pre post
  · intro r e h hf hb hh
    exact initStep_skips_present hf hb hh
  · intro r e h hf hb hh
    exact initStep_registers_absent hf hb hh

/-- Witness for C9: a load over a readable file, an unreadable file, and a
duplicate of the first yields a single record; the unreadable file is
skipped and the duplicate is not re-registered. -/
theorem c9_bulk_load_witness :
    keysUnique ([] : Registry) ∧
    keysUnique (initializeFileHashes (fun b => if b = [1] then "h1" else "hX") []
      [⟨"a.mp3", true, "t1", some [1]⟩, ⟨"bad.lrc", true, "t2", none⟩,
       ⟨"dup.mp3", true, "t3", some [1]⟩]) ∧
    initializeFileHashes (fun b => if b = [1] then "h1" else "hX") []
      [⟨"a.mp3", true, "t1", some [1]⟩, ⟨"bad.lrc", true, "t2", none⟩,
       ⟨"dup.mp3", true, "t3", some [1]⟩] =
      [("h1", ⟨"a.mp3", "a.mp3", "t1", "h1"⟩)] :=
  ⟨by decide,
   (c9_bulk_load (fun b => if b = [1] then "h1" else "hX")
     [⟨"a.mp3", true, "t1", some [1]⟩, ⟨"bad.lrc", true, "t2", none⟩,
      ⟨"dup.mp3", true, "t3", some [1]⟩] [] (by decide)).1,
   by decide⟩
